import Mathlib

/-!
Verification of the neat-stt segment scheduling and merge engine.

Shallow embedding of the repository's backend core:
* `merge_segments` and `format_transcription_output`
  (src/backend/src/audio/utils.py),
* the chunk-length configuration check
  (src/backend/src/configuration/environment.py),
* the Segment Scheduler `SpeechToText._process_diarization_segments`
  and the live per-buffer yield loop of `SpeechToText.transcribe_live`
  (src/backend/src/audio/stt.py).

Python floats are modelled as `ℚ`, Python ints as `ℤ`/`ℕ`, audio slices
`audio[a:b]` as their millisecond bounds.  Opaque model calls (the actual
speech models) produce text that no claim depends on, so text produced by
the transcription adapter is not modelled; everything the scheduler decides
(slice bounds, metadata, batching, flushes) is.
-/

/-- A transcribed segment, embedding the Python dict
`{"start": float, "end": float, "text": str, "speaker": str}` used by
`merge_segments` and `format_transcription_output` (utils.py).  The `end`
key is named `stop` because `end` is reserved in Lean. -/
structure Segment where
  start : ℚ
  stop : ℚ
  text : String
  speaker : String
deriving DecidableEq

/-- One merge step of `merge_segments` (utils.py lines 23-24):
`current["end"] = next_segment["end"]`;
`current["text"] = current["text"].strip() + " " + next_segment["text"].strip()`. -/
def mergeOne (cur nxt : Segment) : Segment :=
  { cur with stop := nxt.stop, text := cur.text.trim ++ " " ++ nxt.text.trim }

/-- The merge condition of `merge_segments` (utils.py line 21):
`next_segment["speaker"] == current["speaker"] and
 next_segment["start"] - current["end"] <= max_gap`. -/
def Mergeable (max_gap : ℚ) (cur nxt : Segment) : Prop :=
  nxt.speaker = cur.speaker ∧ nxt.start - cur.stop ≤ max_gap

instance (g : ℚ) (cur nxt : Segment) : Decidable (Mergeable g cur nxt) := by
  unfold Mergeable; infer_instance

/-- The loop of `merge_segments` (utils.py lines 19-31), with `cur` the
`current` accumulator. -/
def mergeLoop (max_gap : ℚ) : Segment → List Segment → List Segment
  | cur, [] => [cur]
  | cur, nxt :: rest =>
    if Mergeable max_gap cur nxt then
      mergeLoop max_gap (mergeOne cur nxt) rest
    else
      cur :: mergeLoop max_gap nxt rest

/-- Embedding of `merge_segments` (utils.py lines 9-32): empty input gives `[]`,
otherwise the accumulator starts as a copy of the first segment. -/
def merge_segments (segments : List Segment) (max_gap : ℚ := 2) : List Segment :=
  match segments with
  | [] => []
  | first :: rest => mergeLoop max_gap first rest

/-- Folding a block of segments into an accumulator, one `mergeOne` at a
time; `collapse cur block` is the segment that `merge_segments` emits for
the run starting at `cur` that absorbed `block`. -/
def collapse (cur : Segment) (block : List Segment) : Segment :=
  block.foldl mergeOne cur

-- Basic facts about `collapse` and `Mergeable`.

theorem collapse_nil (cur : Segment) : collapse cur [] = cur := rfl

theorem collapse_cons (cur nxt : Segment) (l : List Segment) :
    collapse cur (nxt :: l) = collapse (mergeOne cur nxt) l := rfl

theorem collapse_start (cur : Segment) (l : List Segment) :
    (collapse cur l).start = cur.start := by
  induction l generalizing cur with
  | nil => rfl
  | cons x xs ih => rw [collapse_cons, ih]; rfl

theorem collapse_speaker (cur : Segment) (l : List Segment) :
    (collapse cur l).speaker = cur.speaker := by
  induction l generalizing cur with
  | nil => rfl
  | cons x xs ih => rw [collapse_cons, ih]; rfl

/-- The relation `Mergeable` only looks at the second argument through its `speaker`
and `start`, and after absorbing `nxt` the accumulator has `nxt`'s
`stop` and (by the merge condition) `nxt`'s speaker. -/
theorem mergeable_mergeOne_iff {g : ℚ} {cur nxt : Segment}
    (h : Mergeable g cur nxt) (x : Segment) :
    Mergeable g (mergeOne cur nxt) x ↔ Mergeable g nxt x := by
  obtain ⟨hs, _⟩ := h
  unfold Mergeable mergeOne
  simp only [hs]

theorem chain_mergeOne_iff {g : ℚ} {cur nxt : Segment}
    (h : Mergeable g cur nxt) (l : List Segment) :
    List.Chain (Mergeable g) (mergeOne cur nxt) l ↔
      List.Chain (Mergeable g) nxt l := by
  cases l with
  | nil => simp
  | cons x xs => simp [List.chain_cons, mergeable_mergeOne_iff h x]

/-- The relation `Mergeable g a b` only depends on `b` through `b.speaker` and
`b.start`, so a collapsed block is mergeable with whatever its head was
mergeable with. -/
theorem mergeable_collapse_right_iff (g : ℚ) (a cur : Segment)
    (l : List Segment) :
    Mergeable g a (collapse cur l) ↔
      (cur.speaker = a.speaker ∧ cur.start - a.stop ≤ g) := by
  unfold Mergeable
  rw [collapse_speaker, collapse_start]

/-- The block decomposition of `mergeLoop`: the processed tail splits into
the block absorbed into the running accumulator followed by later blocks,
every absorbed element passed the merge test against the accumulator state
of its moment, and consecutive emitted segments failed the test. -/
theorem mergeLoop_blocks (g : ℚ) (rest : List Segment) (cur : Segment) :
    ∃ (t : List Segment) (blocks : List (Segment × List Segment)),
      rest = t ++ (blocks.map (fun b => b.1 :: b.2)).flatten ∧
      mergeLoop g cur rest =
        ((cur, t) :: blocks).map (fun b => collapse b.1 b.2) ∧
      (∀ b ∈ (cur, t) :: blocks, List.Chain (Mergeable g) b.1 b.2) ∧
      List.Chain'
        (fun b b' => ¬ Mergeable g (collapse b.1 b.2) b'.1)
        ((cur, t) :: blocks) := by
  induction rest generalizing cur with
  | nil =>
    refine ⟨[], [], by simp, ?_, ?_, ?_⟩
    · simp [mergeLoop, collapse]
    · intro b hb; simp at hb; subst hb; exact List.Chain.nil
    · simp
  | cons nxt rest ih =>
    by_cases h : Mergeable g cur nxt
    · obtain ⟨t, blocks, hsplit, hloop, hchain, hbound⟩ := ih (mergeOne cur nxt)
      refine ⟨nxt :: t, blocks, by simpa using hsplit, ?_, ?_, ?_⟩
      · simpa [mergeLoop, h, collapse_cons] using hloop
      · intro b hb
        rcases List.mem_cons.1 hb with hb | hb
        · subst hb
          have := hchain _ (List.mem_cons_self _ _)
          simp only at this
          exact List.Chain.cons h ((chain_mergeOne_iff h t).1 this)
        · exact hchain _ (List.mem_cons_of_mem _ hb)
      · cases blocks with
        | nil => simp
        | cons b bs =>
          have h1 := List.chain'_cons.1 hbound
          exact List.chain'_cons.2 ⟨by simpa [collapse_cons] using h1.1, h1.2⟩
    · obtain ⟨t, blocks, hsplit, hloop, hchain, hbound⟩ := ih nxt
      refine ⟨[], (nxt, t) :: blocks, by simpa using hsplit, ?_, ?_, ?_⟩
      · simpa [mergeLoop, h, collapse_nil] using hloop
      · intro b hb
        rcases List.mem_cons.1 hb with hb | hb
        · subst hb; exact List.Chain.nil
        · exact hchain _ hb
      · refine List.chain'_cons.2 ⟨?_, hbound⟩
        simpa [collapse_nil] using h

/-- Within one block, every absorbed segment carries the block head's
speaker: the merge condition forces speaker equality at each link. -/
theorem chain_mergeable_speaker {g : ℚ} :
    ∀ {cur : Segment} {t : List Segment},
      List.Chain (Mergeable g) cur t → ∀ s ∈ t, s.speaker = cur.speaker := by
  intro cur t h
  induction t generalizing cur with
  | nil => intro s hs; simp at hs
  | cons x xs ih =>
    rcases List.chain_cons.1 h with ⟨⟨hsp, _⟩, hrest⟩
    intro s hs
    rcases List.mem_cons.1 hs with hs | hs
    · subst hs; exact hsp
    · exact (ih hrest s hs).trans hsp

/-- Block decomposition of `merge_segments`, used both for C7 and to
derive idempotence. -/
theorem merge_blocks (segs : List Segment) (g : ℚ) :
    segs = [] ∧ merge_segments segs g = [] ∨
    ∃ blocks : List (Segment × List Segment),
      blocks ≠ [] ∧
      segs = (blocks.map (fun b => b.1 :: b.2)).flatten ∧
      merge_segments segs g = blocks.map (fun b => collapse b.1 b.2) ∧
      (∀ b ∈ blocks, List.Chain (Mergeable g) b.1 b.2) ∧
      (∀ b ∈ blocks, ∀ s ∈ b.2, s.speaker = b.1.speaker) ∧
      List.Chain'
        (fun b b' => ¬ Mergeable g (collapse b.1 b.2) b'.1) blocks := by
  cases segs with
  | nil => exact Or.inl ⟨rfl, rfl⟩
  | cons first rest =>
    obtain ⟨t, blocks, hsplit, hloop, hchain, hbound⟩ :=
      mergeLoop_blocks g rest first
    refine Or.inr ⟨(first, t) :: blocks, by simp, ?_, ?_, hchain, ?_, hbound⟩
    · simpa using congrArg (first :: ·) hsplit
    · simpa [merge_segments] using hloop
    · intro b hb s hs
      exact chain_mergeable_speaker (hchain b hb) s hs

/-- If no two consecutive segments satisfy the merge condition, the merge
loop copies its input. -/
theorem merge_segments_of_chain_not_mergeable (g : ℚ) :
    ∀ l : List Segment,
      List.Chain' (fun a b => ¬ Mergeable g a b) l →
      merge_segments l g = l := by
  intro l
  induction l with
  | nil => intro _; rfl
  | cons x xs ih =>
    intro h
    cases xs with
    | nil => rfl
    | cons y ys =>
      have h1 := List.chain'_cons.1 h
      have ihy : mergeLoop g y ys = y :: ys := by
        simpa [merge_segments] using ih h1.2
      simp [merge_segments, mergeLoop, h1.1, ihy]

/-- The output of `merge_segments` never has two consecutive segments that
still satisfy the merge condition. -/
theorem merge_segments_output_separated (segs : List Segment) (g : ℚ) :
    List.Chain' (fun a b => ¬ Mergeable g a b) (merge_segments segs g) := by
  rcases merge_blocks segs g with ⟨_, h⟩ | ⟨blocks, _, _, hout, _, _, hbound⟩
  · simp [h]
  · rw [hout]
    refine List.chain'_map_of_chain' _ ?_ hbound
    intro b b' hb hm
    exact hb ((mergeable_collapse_right_iff g _ _ _).1 hm)

/-- C6: the Merger is idempotent — on input sorted by start time,
re-running `merge_segments` on its own output returns it unchanged. -/
theorem merge_segments_idempotent (segs : List Segment) (g : ℚ)
    (hsorted : List.Sorted (fun a b => a.start ≤ b.start) segs) :
    merge_segments (merge_segments segs g) g = merge_segments segs g :=
  merge_segments_of_chain_not_mergeable g _
    (merge_segments_output_separated segs g)

/-- Witness for C6 at a concrete sorted input. -/
theorem merge_segments_idempotent_witness :
    List.Sorted (fun a b : Segment => a.start ≤ b.start)
      [⟨0, 1, "hi", "A"⟩, ⟨2, 3, "there", "A"⟩, ⟨6, 7, "no", "B"⟩] ∧
    merge_segments
        (merge_segments [⟨0, 1, "hi", "A"⟩, ⟨2, 3, "there", "A"⟩,
          ⟨6, 7, "no", "B"⟩] 2) 2 =
      merge_segments [⟨0, 1, "hi", "A"⟩, ⟨2, 3, "there", "A"⟩,
          ⟨6, 7, "no", "B"⟩] 2 :=
  ⟨by decide,
   merge_segments_idempotent _ 2 (by decide)⟩

/-- Two-digit zero-padded rendering of one time field, as produced by
`time.strftime`. -/
def pad2 (n : ℕ) : String :=
  if n < 10 then "0" ++ toString n else toString n

/-- Embedding of `time.strftime("%H:%M:%S", time.gmtime(q))` (utils.py lines 51-52):
fractions of a second are ignored and the hour field wraps at 24. -/
def secondsToHMS (q : ℚ) : String :=
  pad2 ((⌊q⌋).toNat / 3600 % 24) ++ ":" ++
    pad2 ((⌊q⌋).toNat % 3600 / 60) ++ ":" ++ pad2 ((⌊q⌋).toNat % 60)

/-- Embedding of `" ".join(text.split())` applied to `text.strip()` (utils.py lines
55-56): collapse all whitespace runs to single spaces and trim the ends. -/
def normalizeWhitespace (s : String) : String :=
  String.intercalate " " ((s.split Char.isWhitespace).filter (fun w => w ≠ ""))

/-- One rendered block of `format_transcription_output` (utils.py line 59):
`f"[{start} -> {end}] {speaker}:\n{text}\n\n"`. -/
def segmentBlock (seg : Segment) (sp : String) : String :=
  "[" ++ secondsToHMS seg.start ++ " -> " ++ secondsToHMS seg.stop ++ "] " ++
    sp ++ ":\n" ++ normalizeWhitespace seg.text ++ "\n\n"

/-- The label `f"Speaker {n}"` (utils.py line 47). -/
def speakerLabel (n : ℕ) : String := "Speaker " ++ toString n

/-- The loop of `format_transcription_output` (utils.py lines 43-59): the
`speaker_map` insertion-ordered dict becomes an association list, and
`current_speaker_num` the counter `num`. -/
def formatLoop : List Segment → List (String × String) → ℕ → String
  | [], _, _ => ""
  | seg :: rest, speaker_map, num =>
    let next :=
      if (speaker_map.lookup seg.speaker).isSome then (speaker_map, num)
      else (speaker_map ++ [(seg.speaker, speakerLabel num)], num + 1)
    segmentBlock seg ((next.1.lookup seg.speaker).getD "") ++
      formatLoop rest next.1 next.2

/-- Embedding of `format_transcription_output` (utils.py lines 35-66); the logging of
the final speaker map is a side effect with no bearing on the return
value and is not modelled. -/
def format_transcription_output (merged_segments : List Segment) : String :=
  formatLoop merged_segments [] 1

/-- The distinct speakers of a segment list in order of first appearance. -/
def distinctSpeakers (segs : List Segment) : List String :=
  segs.foldl (fun acc seg => if seg.speaker ∈ acc then acc else acc ++ [seg.speaker]) []

/-- The association list that maps the i-th string of `seen` to
`speakerLabel (n + i)`. -/
def labelMap : List String → ℕ → List (String × String)
  | [], _ => []
  | s :: rest, n => (s, speakerLabel n) :: labelMap rest (n + 1)

theorem labelMap_append (a b : List String) (n : ℕ) :
    labelMap (a ++ b) n = labelMap a n ++ labelMap b (n + a.length) := by
  induction a generalizing n with
  | nil => simp [labelMap]
  | cons x xs ih =>
    simp [labelMap, ih, Nat.add_assoc, Nat.add_comm 1 xs.length]

theorem labelMap_lookup_of_mem (seen : List String) (sp : String)
    (h : sp ∈ seen) (n : ℕ) :
    (labelMap seen n).lookup sp = some (speakerLabel (n + seen.indexOf sp)) := by
  induction seen generalizing n with
  | nil => simp at h
  | cons x xs ih =>
    by_cases hx : sp = x
    · subst hx
      simp [labelMap, List.lookup, List.indexOf_cons_self]
    · have hmem : sp ∈ xs := by
        rcases List.mem_cons.1 h with h' | h'
        · exact absurd h' hx
        · exact h'
      have hbeq : (sp == x) = false := beq_false_of_ne hx
      rw [List.indexOf_cons_ne _ (Ne.symm hx)]
      simp [labelMap, List.lookup, hbeq, ih hmem (n + 1), Nat.succ_eq_add_one,
        Nat.add_assoc, Nat.add_comm 1 (xs.indexOf sp)]

theorem labelMap_lookup_of_not_mem (seen : List String) (sp : String)
    (h : sp ∉ seen) (n : ℕ) : (labelMap seen n).lookup sp = none := by
  induction seen generalizing n with
  | nil => simp [labelMap]
  | cons x xs ih =>
    have hx : sp ≠ x := fun hc => h (hc ▸ List.mem_cons_self x xs)
    have hmem : sp ∉ xs := fun hc => h (List.mem_cons_of_mem _ hc)
    simp [labelMap, List.lookup, beq_false_of_ne hx, ih hmem]

/-- The fold of `distinctSpeakers` relative to a starting accumulator. -/
def distinctFrom (seen : List String) (segs : List Segment) : List String :=
  segs.foldl (fun acc seg => if seg.speaker ∈ acc then acc else acc ++ [seg.speaker]) seen

theorem distinctFrom_extends (segs : List Segment) (seen : List String) :
    ∃ ext, distinctFrom seen segs = seen ++ ext := by
  induction segs generalizing seen with
  | nil => exact ⟨[], by simp [distinctFrom]⟩
  | cons seg rest ih =>
    by_cases h : seg.speaker ∈ seen
    · obtain ⟨ext, hext⟩ := ih seen
      exact ⟨ext, by simpa [distinctFrom, h] using hext⟩
    · obtain ⟨ext, hext⟩ := ih (seen ++ [seg.speaker])
      refine ⟨seg.speaker :: ext, ?_⟩
      simpa [distinctFrom, h] using hext

/-- Rendering a segment list where each speaker's number is its
first-appearance index (plus one) in `speakers`. -/
def renderWith (speakers : List String) : List Segment → String
  | [] => ""
  | seg :: rest =>
    segmentBlock seg (speakerLabel (speakers.indexOf seg.speaker + 1)) ++
      renderWith speakers rest

/-- Characterization of `formatLoop` from a consistent `speaker_map`: the
label printed for each segment is determined by the first-appearance index
of its speaker. -/
theorem formatLoop_characterization (segs : List Segment)
    (seen : List String) :
    formatLoop segs (labelMap seen 1) (seen.length + 1) =
      renderWith (distinctFrom seen segs) segs := by
  induction segs generalizing seen with
  | nil => rfl
  | cons seg rest ih =>
    by_cases h : seg.speaker ∈ seen
    · have hfold : distinctFrom seen (seg :: rest) = distinctFrom seen rest := by
        simp [distinctFrom, h]
      have hlk := labelMap_lookup_of_mem seen seg.speaker h 1
      obtain ⟨ext, hext⟩ := distinctFrom_extends rest seen
      have hidx : (distinctFrom seen rest).indexOf seg.speaker = seen.indexOf seg.speaker := by
        rw [hext]; exact List.indexOf_append_of_mem h
      simp only [formatLoop, hlk, Option.isSome_some, if_true, Option.getD_some,
        renderWith]
      rw [ih seen]
      rw [hfold, hidx, Nat.add_comm 1 (seen.indexOf seg.speaker)]
    · have hfold : distinctFrom seen (seg :: rest) =
          distinctFrom (seen ++ [seg.speaker]) rest := by
        simp [distinctFrom, h]
      have hlkn := labelMap_lookup_of_not_mem seen seg.speaker h 1
      have hmap : labelMap seen 1 ++ [(seg.speaker, speakerLabel (seen.length + 1))] =
          labelMap (seen ++ [seg.speaker]) 1 := by
        rw [labelMap_append]
        simp [labelMap, Nat.add_comm 1 seen.length]
      have hidx2 : (seen ++ [seg.speaker]).indexOf seg.speaker = seen.length := by
        rw [List.indexOf_append_of_not_mem h]
        simp [List.indexOf_cons_self]
      have hlk2 : (labelMap (seen ++ [seg.speaker]) 1).lookup seg.speaker =
          some (speakerLabel (seen.length + 1)) := by
        rw [labelMap_lookup_of_mem _ _ (by simp) 1, hidx2, Nat.add_comm 1 seen.length]
      obtain ⟨ext, hext⟩ := distinctFrom_extends rest (seen ++ [seg.speaker])
      have hidx : (distinctFrom (seen ++ [seg.speaker]) rest).indexOf seg.speaker =
          seen.length := by
        rw [hext, List.indexOf_append_of_mem (by simp), hidx2]
      simp only [formatLoop, hlkn, Option.isSome_none, Bool.false_eq_true, if_false,
        hmap, hlk2, Option.getD_some, renderWith]
      have := ih (seen ++ [seg.speaker])
      rw [show (seen ++ [seg.speaker]).length = seen.length + 1 by simp] at this
      rw [this, hfold, hidx]

theorem indexOf_map_of_injective {f : String → String}
    (hf : Function.Injective f) (l : List String) (a : String) :
    (l.map f).indexOf (f a) = l.indexOf a := by
  induction l with
  | nil => rfl
  | cons x xs ih =>
    by_cases hx : a = x
    · subst hx; simp [List.indexOf_cons_self]
    · have hfx : f x ≠ f a := fun hc => hx (hf hc).symm
      rw [List.map_cons, List.indexOf_cons_ne _ hfx,
        List.indexOf_cons_ne _ (Ne.symm hx), ih]

theorem distinctFrom_map_of_injective {f : String → String}
    (hf : Function.Injective f) (segs : List Segment) (seen : List String) :
    distinctFrom (seen.map f)
        (segs.map (fun s => { s with speaker := f s.speaker })) =
      (distinctFrom seen segs).map f := by
  induction segs generalizing seen with
  | nil => simp [distinctFrom]
  | cons seg rest ih =>
    by_cases h : seg.speaker ∈ seen
    · have hmem : f seg.speaker ∈ seen.map f := List.mem_map_of_mem f h
      simpa [distinctFrom, h, hmem] using ih seen
    · have hmem : f seg.speaker ∉ seen.map f := by
        intro hc
        rcases List.mem_map.1 hc with ⟨b, hb, hfb⟩
        exact h (hf hfb ▸ hb)
      have := ih (seen ++ [seg.speaker])
      simpa [distinctFrom, h, hmem] using this

theorem renderWith_map_of_injective {f : String → String}
    (hf : Function.Injective f) (speakers : List String) (segs : List Segment) :
    renderWith (speakers.map f)
        (segs.map (fun s => { s with speaker := f s.speaker })) =
      renderWith speakers segs := by
  induction segs with
  | nil => rfl
  | cons seg rest ih =>
    show segmentBlock _ _ ++ _ = segmentBlock _ _ ++ _
    rw [ih]
    congr 1
    unfold segmentBlock
    rw [indexOf_map_of_injective hf]

/-- C8: speaker numbering in `format_transcription_output` is stable and
deterministic — every segment is rendered with label `Speaker k` where
`k` is the first-appearance rank of its speaker, and the output is
invariant under any injective renaming of the diarization model's
internal speaker labels. -/
theorem format_transcription_output_speaker_numbering (segs : List Segment) :
    format_transcription_output segs = renderWith (distinctSpeakers segs) segs ∧
    ∀ f : String → String, Function.Injective f →
      format_transcription_output
          (segs.map (fun s => { s with speaker := f s.speaker })) =
        format_transcription_output segs := by
  have hchar : ∀ l : List Segment,
      format_transcription_output l = renderWith (distinctSpeakers l) l := by
    intro l
    have := formatLoop_characterization l []
    simpa [format_transcription_output, labelMap, distinctSpeakers,
      distinctFrom] using this
  refine ⟨hchar segs, ?_⟩
  intro f hf
  rw [hchar, hchar segs]
  have hd : distinctSpeakers
      (segs.map (fun s => { s with speaker := f s.speaker })) =
      (distinctSpeakers segs).map f := by
    simpa [distinctSpeakers, distinctFrom] using
      distinctFrom_map_of_injective hf segs []
  rw [hd, renderWith_map_of_injective hf]

/-- Witness for C8: the theorem applied at a concrete input, with the
injective renaming instantiated at the identity. -/
theorem format_transcription_output_speaker_numbering_witness :
    format_transcription_output [⟨0, 1, "hi", "S2"⟩, ⟨2, 3, "yo", "S0"⟩] =
      renderWith (distinctSpeakers [⟨0, 1, "hi", "S2"⟩, ⟨2, 3, "yo", "S0"⟩])
        [⟨0, 1, "hi", "S2"⟩, ⟨2, 3, "yo", "S0"⟩] ∧
    format_transcription_output
        (([⟨0, 1, "hi", "S2"⟩, ⟨2, 3, "yo", "S0"⟩] : List Segment).map
          (fun s => { s with speaker := id s.speaker })) =
      format_transcription_output [⟨0, 1, "hi", "S2"⟩, ⟨2, 3, "yo", "S0"⟩] :=
  ⟨(format_transcription_output_speaker_numbering _).1,
   (format_transcription_output_speaker_numbering _).2 id fun _ _ h => h⟩

/-- The chunk-length configuration check of
src/backend/src/configuration/environment.py lines 20-25:
`MAX_CHUNK_LENGTH_MS: int = int(max_chunk) if max_chunk else 0` (same for
min), then `raise ValueError` when either computed value is `0`.  An
environment value is modelled as `none` when the variable is unset or
empty and as `some n` when it parses to the integer `n`. -/
def chunkLengthConfig (max_chunk min_chunk : Option ℤ) : Except String (ℤ × ℤ) :=
  let maxMs := max_chunk.getD 0
  let minMs := min_chunk.getD 0
  if maxMs = 0 ∨ minMs = 0 then
    Except.error
      "MAX_CHUNK_LENGTH and MIN_CHUNK_LENGTH must be greater than 0, did you remember to set the environment variables?"
  else
    Except.ok (maxMs, minMs)

/-- C3 counterexample: the construction-time check accepts a configuration
with `min_chunk_length_ms > max_chunk_length_ms` and also accepts negative
bounds, both of which the claim says are fatal at construction. -/
theorem chunkLengthConfig_accepts_invalid :
    chunkLengthConfig (some 1000) (some 5000) = Except.ok (1000, 5000) ∧
    (1000 : ℤ) < 5000 ∧
    chunkLengthConfig (some (-7)) (some (-7)) = Except.ok (-7, -7) ∧
    (-7 : ℤ) ≤ 0 := by
  refine ⟨rfl, by norm_num, rfl, by norm_num⟩

/-- C3 amended: construction fails exactly when a computed bound is zero,
i.e. when an environment value is unset, empty, or parses to `0`; negative
bounds and `min > max` are accepted. -/
theorem chunkLengthConfig_error_iff (max_chunk min_chunk : Option ℤ) :
    (∃ e, chunkLengthConfig max_chunk min_chunk = Except.error e) ↔
      max_chunk.getD 0 = 0 ∨ min_chunk.getD 0 = 0 := by
  unfold chunkLengthConfig
  by_cases h : max_chunk.getD 0 = 0 ∨ min_chunk.getD 0 = 0
  · simp [h]
  · simp [h]

/-- A diarization turn `(turn.start, turn.end, speaker)` in seconds, as
consumed by `_process_diarization_segments` and by the per-buffer loop of
`transcribe_live` (stt.py).  The `end` attribute is named `stop` because
`end` is reserved in Lean. -/
structure Turn where
  start : ℚ
  stop : ℚ
  speaker : String
deriving DecidableEq

/-- A yielded live result restricted to the fields every claim is about:
`{"start": start_time, "end": end_time, "speaker": speaker}` as returned
by `TranscriptionProcessor.transcribe_chunk` (transcription.py line 65);
the text comes from the opaque speech model and is not modelled. -/
structure LiveResult where
  start : ℚ
  stop : ℚ
  speaker : String
deriving DecidableEq

/-- The formal parameters of `TranscriptionProcessor.transcribe_chunk`
after `self` (transcription.py lines 42-43):
`(chunk, start_time, end_time, speaker, frame_rate)`, none with a
default. -/
def transcribe_chunk_params : List String :=
  ["chunk", "start_time", "end_time", "speaker", "frame_rate"]

/-- The keyword arguments with which `SpeechToText.transcribe_live` calls
`transcribe_chunk` (stt.py lines 369-375): `start_time=`, `end_time=`,
`speaker=`, `waveform=`, `sample_rate=`. -/
def transcribe_live_call_kwargs : List String :=
  ["start_time", "end_time", "speaker", "waveform", "sample_rate"]

/-- Python keyword binding for a call made with keyword arguments only,
against parameters that have no defaults: a TypeError is raised for a
keyword that names no formal parameter, otherwise for a formal parameter
left unbound, and only then does the call body run. -/
def bindKwargs (params kwargs : List String) : Except String Unit :=
  match kwargs.find? (fun k => !(params.contains k)) with
  | some k =>
    Except.error ("TypeError: got an unexpected keyword argument " ++ k)
  | none =>
    match params.find? (fun p => !(kwargs.contains p)) with
    | some p =>
      Except.error ("TypeError: missing required argument " ++ p)
    | none => Except.ok ()

/-- One iteration of the per-segment loop of `transcribe_live` (stt.py
lines 361-376): the `transcribe_chunk` call is bound first; only if the
binding succeeds is the result `{start, end, speaker}` yielded (the text
comes from the opaque speech model and is not modelled). -/
def liveYieldSegment (t : Turn) : Except String LiveResult :=
  match bindKwargs transcribe_chunk_params transcribe_live_call_kwargs with
  | Except.error e => Except.error e
  | Except.ok _ => Except.ok ⟨t.start, t.stop, t.speaker⟩

/-- The per-buffer segment loop of `transcribe_live`: the yields produced
before the first raising call, and the uncaught error if one was raised
(`except KeyboardInterrupt` at stt.py line 388 does not catch a
TypeError). -/
def liveRunBuffer : List Turn → List LiveResult × Option String
  | [] => ([], none)
  | t :: rest =>
    match liveYieldSegment t with
    | Except.error e => ([], some e)
    | Except.ok r =>
      match liveRunBuffer rest with
      | (rs, err) => (r :: rs, err)

/-- `SpeechToText.transcribe_live` (stt.py lines 283-394) observed through
its yields: each element of `buffers` is the diarization output of one
processed buffer; the run returns every result yielded before the first
uncaught error, and that error.  Audio capture, debug recording and the
blocking queue are I/O that cannot change the yielded numbers. -/
def transcribe_live_run : List (List Turn) → List LiveResult × Option String
  | [] => ([], none)
  | b :: bs =>
    match liveRunBuffer b with
    | (rs, some e) => (rs, some e)
    | (rs, none) =>
      match transcribe_live_run bs with
      | (rs2, err) => (rs ++ rs2, err)

/-- C4: the live path cannot yield at all.  The call at stt.py lines
369-375 passes the keywords `waveform=` and `sample_rate=`, which name no
parameter of `transcribe_chunk` (transcription.py lines 42-43), so Python
raises a TypeError on the very first diarized segment, before the first
`yield`: no segment is ever yielded, and in particular no
`total_processed_duration` offset is ever applied to a yielded timestamp
(no such variable exists in the code).  Concretely, one buffer diarized
as the single turn `(0s, 1s, "A")` produces no yields and the TypeError;
in general every run yields the empty list. -/
theorem transcribe_live_crashes_before_yield :
    bindKwargs transcribe_chunk_params transcribe_live_call_kwargs =
      Except.error "TypeError: got an unexpected keyword argument waveform" ∧
    transcribe_live_run [[⟨0, 1, "A"⟩]] =
      ([], some "TypeError: got an unexpected keyword argument waveform") ∧
    ∀ buffers : List (List Turn), (transcribe_live_run buffers).1 = [] := by
  refine ⟨rfl, rfl, ?_⟩
  intro buffers
  induction buffers with
  | nil => rfl
  | cons b bs ih =>
    cases b with
    | nil => simpa [transcribe_live_run, liveRunBuffer] using ih
    | cons t rest =>
      simp [transcribe_live_run, liveRunBuffer, liveYieldSegment, bindKwargs,
        transcribe_chunk_params, transcribe_live_call_kwargs]

/-- Python `int(q * 1000)`: conversion of seconds to milliseconds with
truncation toward zero (stt.py lines 132-133). -/
def msOf (q : ℚ) : ℤ :=
  if q < 0 then ⌈q * 1000⌉ else ⌊q * 1000⌋

/-- Ghost provenance of a scheduled chunk: which branch of
`_process_diarization_segments` produced it.  `pending` is a flushed
accumulated `current_segment`, `window` one slice of a long turn,
`whole` a normal-length turn taken in one piece. -/
inductive ChunkKind
  | pending
  | window
  | whole
deriving DecidableEq

/-- One audio slice `audio[start_ms:end_ms]` appended to `batch_chunks`.
`speaker` and `kind` are ghost provenance fields recording which turn the
slice came from; the slice itself is determined by its bounds. -/
structure Chunk where
  start_ms : ℤ
  end_ms : ℤ
  speaker : String
  kind : ChunkKind
deriving DecidableEq

/-- One entry of `batch_metadata`: `{"start": ms/1000, "end": ms/1000,
"speaker": speaker}` (stt.py lines 147-151 and analogous sites). -/
structure Meta where
  start : ℚ
  stop : ℚ
  speaker : String
deriving DecidableEq

/-- The mutable `current_segment` accumulator dict
`{"start_ms", "end_ms", "duration", "speaker"}` (stt.py lines 163-176). -/
structure PendingSeg where
  start_ms : ℤ
  end_ms : ℤ
  duration : ℤ
  speaker : String
deriving DecidableEq

/-- Ghost tag for where a `current_segment` flush happened: at a speaker
change between short turns (stt.py line 144), before a long turn (line
182), or before a normal turn (line 224). -/
inductive FlushSite
  | shortSpeakerChange
  | beforeLong
  | beforeNormal
deriving DecidableEq

/-- The scheduler state threaded through the turn loop of
`_process_diarization_segments`: the `current_segment` accumulator and
the `batch_chunks`/`batch_metadata` buffers, plus two ghost traces —
the mid-stream submissions already sent to
`transcribe_chunks_batch` and the pending-segment flush events. -/
structure SchedState where
  current : Option PendingSeg
  batch_chunks : List Chunk
  batch_metadata : List Meta
  subs : List (List Chunk × List Meta)
  flushes : List (PendingSeg × FlushSite)
deriving DecidableEq

def initState : SchedState := ⟨none, [], [], [], []⟩

/-- Appending one chunk and its metadata to the batch buffers, then
submitting the batch when `len(batch_chunks) >= self.batch_size`
(stt.py lines 146-161 and the identical blocks at every enqueue site). -/
def enqueue (batch_size : ℕ) (st : SchedState) (c : Chunk) (m : Meta) :
    SchedState :=
  let ch := st.batch_chunks ++ [c]
  let md := st.batch_metadata ++ [m]
  if batch_size ≤ ch.length then
    { st with
      batch_chunks := []
      batch_metadata := []
      subs := st.subs ++ [(ch, md)] }
  else
    { st with batch_chunks := ch, batch_metadata := md }

/-- The slice `audio[current_segment["start_ms"]:current_segment["end_ms"]]`. -/
def chunkOfPending (p : PendingSeg) : Chunk :=
  ⟨p.start_ms, p.end_ms, p.speaker, ChunkKind.pending⟩

/-- The metadata dict built from `current_segment` (stt.py lines
147-151). -/
def metaOfPending (p : PendingSeg) : Meta :=
  ⟨(p.start_ms : ℚ) / 1000, (p.end_ms : ℚ) / 1000, p.speaker⟩

/-- Flushing `current_segment` into the batch, recording the ghost flush
event. -/
def flushPending (batch_size : ℕ) (site : FlushSite) (st : SchedState)
    (p : PendingSeg) : SchedState :=
  enqueue batch_size { st with flushes := st.flushes ++ [(p, site)] }
    (chunkOfPending p) (metaOfPending p)

/-- The number of iterations of `range(s, e, step)`. -/
def rangeLen (s e step : ℤ) : ℕ :=
  if 0 < step ∧ s < e then (e - s - 1).toNat / step.toNat + 1 else 0

/-- The windows cut from a long turn by
`for chunk_start in range(start_ms, end_ms, max_chunk_length):
   chunk_end = min(chunk_start + max_chunk_length, end_ms)`
(stt.py lines 203-204). -/
def splitWindows (s e step : ℤ) : List (ℤ × ℤ) :=
  (List.range (rangeLen s e step)).map
    (fun (i : ℕ) => (s + step * (i : ℤ), min (s + step * (i : ℤ) + step) e))

/-- One iteration of the turn loop of
`SpeechToText._process_diarization_segments` (stt.py lines 131-262),
with the three branches: short turn (`duration < min_chunk_length`),
long turn (`duration > max_chunk_length`), and normal turn. -/
def processTurn (batch_size : ℕ) (max_chunk_length min_chunk_length : ℤ)
    (st : SchedState) (t : Turn) : SchedState :=
  let start_ms := msOf t.start
  let end_ms := msOf t.stop
  let duration := end_ms - start_ms
  if duration < min_chunk_length then
    -- stt.py lines 137-177
    match st.current with
    | some cs =>
      if cs.speaker = t.speaker then
        { st with
          current :=
            some { cs with end_ms := end_ms, duration := cs.duration + duration } }
      else
        let st1 :=
          if min_chunk_length ≤ cs.duration then
            flushPending batch_size FlushSite.shortSpeakerChange st cs
          else st
        { st1 with current := some ⟨start_ms, end_ms, duration, t.speaker⟩ }
    | none => { st with current := some ⟨start_ms, end_ms, duration, t.speaker⟩ }
  else if max_chunk_length < duration then
    -- stt.py lines 180-221
    let st1 :=
      match st.current with
      | some cs =>
        { flushPending batch_size FlushSite.beforeLong st cs with current := none }
      | none => st
    (splitWindows start_ms end_ms max_chunk_length).foldl
      (fun s w =>
        enqueue batch_size s ⟨w.1, w.2, t.speaker, ChunkKind.window⟩
          ⟨(w.1 : ℚ) / 1000, (w.2 : ℚ) / 1000, t.speaker⟩) st1
  else
    -- stt.py lines 222-262
    let st1 :=
      match st.current with
      | some cs => flushPending batch_size FlushSite.beforeNormal st cs
      | none => st
    { enqueue batch_size st1 ⟨start_ms, end_ms, t.speaker, ChunkKind.whole⟩
        ⟨(start_ms : ℚ) / 1000, (end_ms : ℚ) / 1000, t.speaker⟩ with
      current := none }

/-- The observable outcome of one scheduling pass: the mid-stream batch
submissions, the final end-of-stream submission (stt.py lines 274-279) if
the buffers are non-empty, the ghost trace of mid-stream pending flushes,
and the terminal pending flush (lines 264-272) if it met the minimum. -/
structure SchedResult where
  subs : List (List Chunk × List Meta)
  finalSub : Option (List Chunk × List Meta)
  flushes : List (PendingSeg × FlushSite)
  terminalFlush : Option PendingSeg
deriving DecidableEq

/-- The end-of-stream handling of any remaining `current_segment`
(stt.py lines 264-272): append its chunk and metadata to the batch
buffers — with no batch-full check — when it meets the minimum. -/
def pendingTail (min_chunk_length : ℤ) (st : SchedState) :
    SchedState × Option PendingSeg :=
  match st.current with
  | some cs =>
    if min_chunk_length ≤ cs.duration then
      ({ st with
          batch_chunks := st.batch_chunks ++ [chunkOfPending cs],
          batch_metadata := st.batch_metadata ++ [metaOfPending cs] },
        some cs)
    else (st, none)
  | none => (st, none)

/-- Embedding of `SpeechToText._process_diarization_segments` (stt.py lines 115-281):
fold the turn loop over the diarization segments, append the remaining
`current_segment` if it meets the minimum, and submit the remaining batch
if non-empty (lines 274-279). -/
def process_diarization_segments (batch_size : ℕ)
    (max_chunk_length min_chunk_length : ℤ) (turns : List Turn) :
    SchedResult :=
  let st := turns.foldl (processTurn batch_size max_chunk_length min_chunk_length)
    initState
  let fin := pendingTail min_chunk_length st
  { subs := fin.1.subs,
    finalSub :=
      if fin.1.batch_chunks.isEmpty then none
      else some (fin.1.batch_chunks, fin.1.batch_metadata),
    flushes := fin.1.flushes,
    terminalFlush := fin.2 }

/-- All chunks a state has pushed toward the Transcription Adapter:
already-submitted batches in order, then the still-buffered chunks. -/
def stateChunks (st : SchedState) : List Chunk :=
  (st.subs.map Prod.fst).flatten ++ st.batch_chunks

/-- Every chunk submitted to the Transcription Adapter during the pass:
mid-stream batches in order, then the final batch. -/
def allChunks (r : SchedResult) : List Chunk :=
  (r.subs.map Prod.fst).flatten ++
    (match r.finalSub with
     | some sub => sub.1
     | none => [])

theorem foldl_preserve {σ α : Type _} (P : σ → Prop) (f : σ → α → σ)
    (hf : ∀ s a, P s → P (f s a)) :
    ∀ (l : List α) (s : σ), P s → P (l.foldl f s) := by
  intro l
  induction l with
  | nil => intro s hs; exact hs
  | cons x xs ih => intro s hs; exact ih _ (hf s x hs)

theorem foldl_preserve_mem {σ α : Type _} (P : σ → Prop) (f : σ → α → σ) :
    ∀ (l : List α), (∀ s a, a ∈ l → P s → P (f s a)) →
      ∀ (s : σ), P s → P (l.foldl f s) := by
  intro l
  induction l with
  | nil => intro _ s hs; exact hs
  | cons x xs ih =>
    intro hf s hs
    exact ih (fun s a ha hsa => hf s a (List.mem_cons_of_mem _ ha) hsa) _
      (hf s x (List.mem_cons_self _ _) hs)

theorem enqueue_stateChunks (bs : ℕ) (st : SchedState) (c : Chunk) (m : Meta) :
    stateChunks (enqueue bs st c m) = stateChunks st ++ [c] := by
  unfold enqueue stateChunks
  dsimp only
  split_ifs with h
  · simp
  · simp

theorem enqueue_current (bs : ℕ) (st : SchedState) (c : Chunk) (m : Meta) :
    (enqueue bs st c m).current = st.current := by
  unfold enqueue
  dsimp only
  split_ifs with h <;> rfl

theorem enqueue_flushes (bs : ℕ) (st : SchedState) (c : Chunk) (m : Meta) :
    (enqueue bs st c m).flushes = st.flushes := by
  unfold enqueue
  dsimp only
  split_ifs with h <;> rfl

theorem flushPending_stateChunks (bs : ℕ) (site : FlushSite) (st : SchedState)
    (p : PendingSeg) :
    stateChunks (flushPending bs site st p) = stateChunks st ++ [chunkOfPending p] := by
  unfold flushPending
  rw [enqueue_stateChunks]
  rfl

theorem flushPending_current (bs : ℕ) (site : FlushSite) (st : SchedState)
    (p : PendingSeg) : (flushPending bs site st p).current = st.current := by
  unfold flushPending
  rw [enqueue_current]

theorem flushPending_flushes (bs : ℕ) (site : FlushSite) (st : SchedState)
    (p : PendingSeg) :
    (flushPending bs site st p).flushes = st.flushes ++ [(p, site)] := by
  unfold flushPending
  rw [enqueue_flushes]

/-- The metadata entry built at every enqueue site describes its chunk:
start and end are the chunk's millisecond bounds divided by 1000, and the
speakers agree. -/
def ChunkMetaAligned (c : Chunk) (m : Meta) : Prop :=
  m.start = (c.start_ms : ℚ) / 1000 ∧ m.stop = (c.end_ms : ℚ) / 1000 ∧
    m.speaker = c.speaker

/-- The batching invariant of the scheduling pass: the two batch buffers
are aligned and strictly shorter than `batch_size`, and every mid-stream
submission so far was exactly `batch_size` aligned pairs. -/
def BatchInv (bs : ℕ) (st : SchedState) : Prop :=
  st.batch_chunks.length < bs ∧
  List.Forall₂ ChunkMetaAligned st.batch_chunks st.batch_metadata ∧
  ∀ sub ∈ st.subs, sub.1.length = bs ∧ List.Forall₂ ChunkMetaAligned sub.1 sub.2

theorem enqueue_batchInv {bs : ℕ} {st : SchedState} {c : Chunk} {m : Meta}
    (hbs : 0 < bs) (hcm : ChunkMetaAligned c m) (hst : BatchInv bs st) :
    BatchInv bs (enqueue bs st c m) := by
  obtain ⟨hlen, hal, hsubs⟩ := hst
  have hone : List.Forall₂ ChunkMetaAligned [c] [m] :=
    List.forall₂_cons.2 ⟨hcm, List.Forall₂.nil⟩
  unfold enqueue BatchInv
  dsimp only
  split_ifs with h
  · refine ⟨hbs, List.Forall₂.nil, ?_⟩
    intro sub hsub
    simp only [List.mem_append, List.mem_singleton] at hsub
    rcases hsub with hsub | hsub
    · exact hsubs sub hsub
    · subst hsub
      refine ⟨?_, List.rel_append hal hone⟩
      simp only [List.length_append, List.length_singleton] at h ⊢
      omega
  · refine ⟨?_, List.rel_append hal hone, hsubs⟩
    simp only [List.length_append, List.length_singleton] at h ⊢
    omega

theorem chunkMetaAligned_pending (p : PendingSeg) :
    ChunkMetaAligned (chunkOfPending p) (metaOfPending p) :=
  ⟨rfl, rfl, rfl⟩

theorem flushPending_batchInv {bs : ℕ} {st : SchedState} {p : PendingSeg}
    (hbs : 0 < bs) (site : FlushSite) (hst : BatchInv bs st) :
    BatchInv bs (flushPending bs site st p) := by
  unfold flushPending
  exact enqueue_batchInv hbs (chunkMetaAligned_pending p)
    ⟨hst.1, hst.2.1, hst.2.2⟩

/-- The invariant `BatchInv` never looks at `current` or `flushes`, so it transfers
across updates that only change those fields. -/
theorem batchInv_set_current {bs : ℕ} {st : SchedState}
    (hst : BatchInv bs st) (cur : Option PendingSeg) :
    BatchInv bs { st with current := cur } := hst

theorem processTurn_batchInv {bs : ℕ} {maxLen minLen : ℤ} {st : SchedState}
    (hbs : 0 < bs) (t : Turn) (hst : BatchInv bs st) :
    BatchInv bs (processTurn bs maxLen minLen st t) := by
  unfold processTurn
  dsimp only
  split_ifs with hshort hlong
  · match st.current with
    | some cs =>
      dsimp only
      split_ifs with hsp hd
      · exact batchInv_set_current hst _
      · exact batchInv_set_current
          (flushPending_batchInv hbs FlushSite.shortSpeakerChange hst) _
      · exact batchInv_set_current hst _
    | none => exact batchInv_set_current hst _
  · have hst1 : BatchInv bs
        (match st.current with
         | some cs =>
           { flushPending bs FlushSite.beforeLong st cs with current := none }
         | none => st) := by
      match st.current with
      | some cs =>
        exact batchInv_set_current
          (flushPending_batchInv hbs FlushSite.beforeLong hst) _
      | none => exact hst
    refine foldl_preserve (BatchInv bs) _ ?_ _ _ hst1
    intro s w hs
    exact enqueue_batchInv hbs ⟨rfl, rfl, rfl⟩ hs
  · have hst1 : BatchInv bs
        (match st.current with
         | some cs => flushPending bs FlushSite.beforeNormal st cs
         | none => st) := by
      match st.current with
      | some cs => exact flushPending_batchInv hbs FlushSite.beforeNormal hst
      | none => exact hst
    exact batchInv_set_current (enqueue_batchInv hbs ⟨rfl, rfl, rfl⟩ hst1) _

theorem pendingTail_subs (minLen : ℤ) (st : SchedState) :
    (pendingTail minLen st).1.subs = st.subs := by
  unfold pendingTail
  rcases st.current with _ | cs
  · rfl
  · dsimp only
    split_ifs with h <;> rfl

theorem pendingTail_flushes (minLen : ℤ) (st : SchedState) :
    (pendingTail minLen st).1.flushes = st.flushes := by
  unfold pendingTail
  rcases st.current with _ | cs
  · rfl
  · dsimp only
    split_ifs with h <;> rfl

theorem pendingTail_batch_cases (minLen : ℤ) (st : SchedState) :
    ((pendingTail minLen st).1.batch_chunks = st.batch_chunks ∧
      (pendingTail minLen st).1.batch_metadata = st.batch_metadata) ∨
    ∃ cs, st.current = some cs ∧ minLen ≤ cs.duration ∧
      (pendingTail minLen st).1.batch_chunks = st.batch_chunks ++ [chunkOfPending cs] ∧
      (pendingTail minLen st).1.batch_metadata = st.batch_metadata ++ [metaOfPending cs] := by
  unfold pendingTail
  rcases hc : st.current with _ | cs
  · exact Or.inl ⟨rfl, rfl⟩
  · dsimp only
    split_ifs with h
    · exact Or.inr ⟨cs, rfl, h, rfl, rfl⟩
    · exact Or.inl ⟨rfl, rfl⟩

theorem pendingTail_terminal (minLen : ℤ) (st : SchedState) (p : PendingSeg)
    (h : (pendingTail minLen st).2 = some p) :
    st.current = some p ∧ minLen ≤ p.duration := by
  unfold pendingTail at h
  cases hc : st.current with
  | none => rw [hc] at h; simp at h
  | some cs =>
    rw [hc] at h
    dsimp only at h
    split_ifs at h with hd
    simp only [Option.some.injEq] at h
    subst h
    exact ⟨rfl, hd⟩

theorem initState_batchInv {bs : ℕ} (hbs : 0 < bs) : BatchInv bs initState :=
  ⟨hbs, List.Forall₂.nil, by intro sub hsub; simp [initState] at hsub⟩

/-- C9: at every call to `transcribe_chunks_batch` the chunk list and the
metadata list are aligned entry by entry (same length, i-th metadata
describing the i-th chunk); mid-stream submissions have exactly
`batch_size` entries and the end-of-stream submission has between 1 and
`batch_size` entries. -/
theorem scheduler_batch_alignment (bs : ℕ) (maxLen minLen : ℤ)
    (turns : List Turn) (hbs : 0 < bs) :
    (∀ sub ∈ (process_diarization_segments bs maxLen minLen turns).subs,
        sub.1.length = bs ∧ sub.2.length = bs ∧
        List.Forall₂ ChunkMetaAligned sub.1 sub.2) ∧
    (∀ sub, (process_diarization_segments bs maxLen minLen turns).finalSub =
        some sub →
        1 ≤ sub.1.length ∧ sub.1.length ≤ bs ∧ sub.2.length = sub.1.length ∧
        List.Forall₂ ChunkMetaAligned sub.1 sub.2) := by
  have hinv : BatchInv bs
      (turns.foldl (processTurn bs maxLen minLen) initState) :=
    foldl_preserve (BatchInv bs) _
      (fun s a hs => processTurn_batchInv hbs a hs) turns initState
      (initState_batchInv hbs)
  obtain ⟨hlen, hal, hsubs⟩ := hinv
  constructor
  · intro sub hsub
    have hs : (process_diarization_segments bs maxLen minLen turns).subs =
        (turns.foldl (processTurn bs maxLen minLen) initState).subs := by
      show (pendingTail minLen _).1.subs = _
      exact pendingTail_subs _ _
    rw [hs] at hsub
    obtain ⟨h1, h2⟩ := hsubs sub hsub
    exact ⟨h1, by rw [← h2.length_eq, h1], h2⟩
  · intro sub hsub
    have hfin : (process_diarization_segments bs maxLen minLen turns).finalSub =
        (if (pendingTail minLen
              (turns.foldl (processTurn bs maxLen minLen) initState)).1.batch_chunks.isEmpty
         then none
         else some ((pendingTail minLen
              (turns.foldl (processTurn bs maxLen minLen) initState)).1.batch_chunks,
            (pendingTail minLen
              (turns.foldl (processTurn bs maxLen minLen) initState)).1.batch_metadata)) :=
      rfl
    rw [hfin] at hsub
    split_ifs at hsub with he
    have hne : (pendingTail minLen
        (turns.foldl (processTurn bs maxLen minLen) initState)).1.batch_chunks ≠ [] := by
      simpa [List.isEmpty_iff] using he
    have hsub' : ((pendingTail minLen
          (turns.foldl (processTurn bs maxLen minLen) initState)).1.batch_chunks,
        (pendingTail minLen
          (turns.foldl (processTurn bs maxLen minLen) initState)).1.batch_metadata) =
        sub := Option.some_injective _ hsub
    subst hsub'
    refine ⟨List.length_pos.2 hne, ?_⟩
    rcases pendingTail_batch_cases minLen
        (turns.foldl (processTurn bs maxLen minLen) initState) with
      ⟨hb, hm⟩ | ⟨cs, _, _, hb, hm⟩
    · rw [hb, hm]
      exact ⟨Nat.le_of_lt hlen, hal.length_eq.symm, hal⟩
    · rw [hb, hm]
      have hone : List.Forall₂ ChunkMetaAligned
          [chunkOfPending cs] [metaOfPending cs] :=
        List.forall₂_cons.2 ⟨chunkMetaAligned_pending cs, List.Forall₂.nil⟩
      refine ⟨?_, (List.rel_append hal hone).length_eq.symm,
        List.rel_append hal hone⟩
      simp only [List.length_append, List.length_singleton]
      omega

theorem splitWindows_width_le (s e step : ℤ) :
    ∀ w ∈ splitWindows s e step, w.2 - w.1 ≤ step := by
  intro w hw
  simp only [splitWindows, List.mem_map, List.mem_range] at hw
  obtain ⟨i, _, rfl⟩ := hw
  have : min (s + step * i + step) e ≤ s + step * i + step := min_le_left _ _
  omega

/-- Invariant for the amended C1: every chunk pushed so far that is not a
flushed pending segment respects the maximum chunk length. -/
def NonPendingBounded (maxLen : ℤ) (st : SchedState) : Prop :=
  ∀ c ∈ stateChunks st, c.kind ≠ ChunkKind.pending →
    c.end_ms - c.start_ms ≤ maxLen

theorem enqueue_nonPendingBounded {bs : ℕ} {maxLen : ℤ} {st : SchedState}
    {c : Chunk} {m : Meta}
    (hc : c.kind ≠ ChunkKind.pending → c.end_ms - c.start_ms ≤ maxLen)
    (hst : NonPendingBounded maxLen st) :
    NonPendingBounded maxLen (enqueue bs st c m) := by
  intro x hx hk
  rw [enqueue_stateChunks] at hx
  rcases List.mem_append.1 hx with hx | hx
  · exact hst x hx hk
  · rw [List.mem_singleton] at hx
    subst hx
    exact hc hk

theorem flushPending_nonPendingBounded {bs : ℕ} {maxLen : ℤ} {st : SchedState}
    {p : PendingSeg} (site : FlushSite)
    (hst : NonPendingBounded maxLen st) :
    NonPendingBounded maxLen (flushPending bs site st p) := by
  intro x hx hk
  rw [flushPending_stateChunks] at hx
  rcases List.mem_append.1 hx with hx | hx
  · exact hst x hx hk
  · rw [List.mem_singleton] at hx
    subst hx
    exact absurd rfl hk

/-- The invariant `NonPendingBounded` ignores `current`. -/
theorem nonPendingBounded_set_current {maxLen : ℤ} {st : SchedState}
    (hst : NonPendingBounded maxLen st) (cur : Option PendingSeg) :
    NonPendingBounded maxLen { st with current := cur } := hst

theorem processTurn_nonPendingBounded {bs : ℕ} {maxLen minLen : ℤ}
    {st : SchedState} (t : Turn) (hst : NonPendingBounded maxLen st) :
    NonPendingBounded maxLen (processTurn bs maxLen minLen st t) := by
  unfold processTurn
  dsimp only
  split_ifs with hshort hlong
  · match st.current with
    | some cs =>
      dsimp only
      split_ifs with hsp hd
      · exact nonPendingBounded_set_current hst _
      · exact nonPendingBounded_set_current
          (flushPending_nonPendingBounded FlushSite.shortSpeakerChange hst) _
      · exact nonPendingBounded_set_current hst _
    | none => exact nonPendingBounded_set_current hst _
  · have hst1 : NonPendingBounded maxLen
        (match st.current with
         | some cs =>
           { flushPending bs FlushSite.beforeLong st cs with current := none }
         | none => st) := by
      match st.current with
      | some cs =>
        exact nonPendingBounded_set_current
          (flushPending_nonPendingBounded FlushSite.beforeLong hst) _
      | none => exact hst
    refine foldl_preserve_mem (NonPendingBounded maxLen) _ _ ?_ _ hst1
    intro s w hw hs
    refine enqueue_nonPendingBounded ?_ hs
    intro _
    exact splitWindows_width_le _ _ _ w hw
  · have hst1 : NonPendingBounded maxLen
        (match st.current with
         | some cs => flushPending bs FlushSite.beforeNormal st cs
         | none => st) := by
      match st.current with
      | some cs => exact flushPending_nonPendingBounded FlushSite.beforeNormal hst
      | none => exact hst
    refine nonPendingBounded_set_current
      (enqueue_nonPendingBounded ?_ hst1) _
    intro _
    dsimp only
    omega

theorem process_allChunks (bs : ℕ) (maxLen minLen : ℤ) (turns : List Turn) :
    allChunks (process_diarization_segments bs maxLen minLen turns) =
      stateChunks (pendingTail minLen
        (turns.foldl (processTurn bs maxLen minLen) initState)).1 := by
  unfold allChunks process_diarization_segments stateChunks
  dsimp only
  by_cases he : (pendingTail minLen
      (turns.foldl (processTurn bs maxLen minLen) initState)).1.batch_chunks.isEmpty
  · simp [he, List.isEmpty_iff.1 he]
  · simp [he]

theorem pendingTail_stateChunks_mem (minLen : ℤ) (st : SchedState) :
    ∀ c ∈ stateChunks (pendingTail minLen st).1,
      c ∈ stateChunks st ∨ c.kind = ChunkKind.pending := by
  intro c hc
  unfold stateChunks at hc ⊢
  rw [pendingTail_subs] at hc
  rcases pendingTail_batch_cases minLen st with ⟨hb, _⟩ | ⟨cs, _, _, hb, _⟩
  · rw [hb] at hc
    exact Or.inl hc
  · rw [hb] at hc
    rcases List.mem_append.1 hc with hm | hm
    · exact Or.inl (List.mem_append_left _ hm)
    · rcases List.mem_append.1 hm with hm | hm
      · exact Or.inl (List.mem_append_right _ hm)
      · rw [List.mem_singleton] at hm
        subst hm
        exact Or.inr rfl

theorem initState_stateChunks : stateChunks initState = [] := rfl

/-- C1 amended: every chunk the Scheduler submits that is not the flush of
a PendingSegment — i.e. every window cut from a long turn and every whole
normal turn — satisfies `end_ms - start_ms <= max_chunk_length_ms`.
(Flushed PendingSegments are exempt: their slice spans the accumulated
turns including any silence between them, which the code never bounds.) -/
theorem scheduler_nonpending_chunk_bounded (bs : ℕ) (maxLen minLen : ℤ)
    (turns : List Turn) :
    ∀ c ∈ allChunks (process_diarization_segments bs maxLen minLen turns),
      c.kind ≠ ChunkKind.pending → c.end_ms - c.start_ms ≤ maxLen := by
  intro c hc hk
  rw [process_allChunks] at hc
  rcases pendingTail_stateChunks_mem _ _ c hc with hm | hm
  · have hinv : NonPendingBounded maxLen
        (turns.foldl (processTurn bs maxLen minLen) initState) := by
      refine foldl_preserve (NonPendingBounded maxLen) _ ?_ _ _ ?_
      · intro s a hs
        exact processTurn_nonPendingBounded a hs
      · intro x hx
        rw [initState_stateChunks] at hx
        exact absurd hx (List.not_mem_nil x)
    exact hinv c hm hk
  · exact absurd hm hk

/-- Invariant for the amended C2: every mid-stream flush recorded at the
short-turn speaker-change site met the minimum duration. -/
def FlushMinInv (minLen : ℤ) (st : SchedState) : Prop :=
  ∀ pr ∈ st.flushes, pr.2 = FlushSite.shortSpeakerChange →
    minLen ≤ pr.1.duration

theorem enqueue_flushMinInv {bs : ℕ} {minLen : ℤ} {st : SchedState}
    {c : Chunk} {m : Meta} (hst : FlushMinInv minLen st) :
    FlushMinInv minLen (enqueue bs st c m) := by
  intro pr hpr
  rw [enqueue_flushes] at hpr
  exact hst pr hpr

theorem flushPending_flushMinInv {bs : ℕ} {minLen : ℤ} {st : SchedState}
    {p : PendingSeg} {site : FlushSite}
    (hp : site = FlushSite.shortSpeakerChange → minLen ≤ p.duration)
    (hst : FlushMinInv minLen st) :
    FlushMinInv minLen (flushPending bs site st p) := by
  intro pr hpr hsite
  rw [flushPending_flushes] at hpr
  rcases List.mem_append.1 hpr with hm | hm
  · exact hst pr hm hsite
  · rw [List.mem_singleton] at hm
    subst hm
    exact hp hsite

theorem flushMinInv_set_current {minLen : ℤ} {st : SchedState}
    (hst : FlushMinInv minLen st) (cur : Option PendingSeg) :
    FlushMinInv minLen { st with current := cur } := hst

theorem processTurn_flushMinInv {bs : ℕ} {maxLen minLen : ℤ}
    {st : SchedState} (t : Turn) (hst : FlushMinInv minLen st) :
    FlushMinInv minLen (processTurn bs maxLen minLen st t) := by
  unfold processTurn
  dsimp only
  split_ifs with hshort hlong
  · match st.current with
    | some cs =>
      dsimp only
      split_ifs with hsp hd
      · exact flushMinInv_set_current hst _
      · exact flushMinInv_set_current
          (flushPending_flushMinInv (fun _ => hd) hst) _
      · exact flushMinInv_set_current hst _
    | none => exact flushMinInv_set_current hst _
  · have hst1 : FlushMinInv minLen
        (match st.current with
         | some cs =>
           { flushPending bs FlushSite.beforeLong st cs with current := none }
         | none => st) := by
      match st.current with
      | some cs =>
        exact flushMinInv_set_current
          (flushPending_flushMinInv (fun h => absurd h (by simp)) hst) _
      | none => exact hst
    refine foldl_preserve_mem (FlushMinInv minLen) _ _ ?_ _ hst1
    intro s w _ hs
    exact enqueue_flushMinInv hs
  · have hst1 : FlushMinInv minLen
        (match st.current with
         | some cs => flushPending bs FlushSite.beforeNormal st cs
         | none => st) := by
      match st.current with
      | some cs =>
        exact flushPending_flushMinInv (fun h => absurd h (by simp)) hst
      | none => exact hst
    exact flushMinInv_set_current (enqueue_flushMinInv hst1) _

/-- C2 amended: the minimum-duration rule holds at the short-turn
speaker-change flush site and at the terminal end-of-stream flush; the
flushes that precede a long turn or a normal turn are unconditional and
are NOT subject to the rule (see the counterexample). -/
theorem scheduler_flush_min_rule (bs : ℕ) (maxLen minLen : ℤ)
    (turns : List Turn) :
    (∀ pr ∈ (process_diarization_segments bs maxLen minLen turns).flushes,
        pr.2 = FlushSite.shortSpeakerChange → minLen ≤ pr.1.duration) ∧
    (∀ p, (process_diarization_segments bs maxLen minLen turns).terminalFlush =
        some p → minLen ≤ p.duration) := by
  constructor
  · intro pr hpr
    have hinv : FlushMinInv minLen
        (turns.foldl (processTurn bs maxLen minLen) initState) := by
      refine foldl_preserve (FlushMinInv minLen) _ ?_ _ _ ?_
      · intro s a hs
        exact processTurn_flushMinInv a hs
      · intro x hx
        exact absurd hx (List.not_mem_nil x)
    have hfl : (process_diarization_segments bs maxLen minLen turns).flushes =
        (turns.foldl (processTurn bs maxLen minLen) initState).flushes := by
      show (pendingTail minLen _).1.flushes = _
      exact pendingTail_flushes _ _
    rw [hfl] at hpr
    exact hinv pr hpr
  · intro p hp
    have hterm : (process_diarization_segments bs maxLen minLen turns).terminalFlush =
        (pendingTail minLen
          (turns.foldl (processTurn bs maxLen minLen) initState)).2 := rfl
    rw [hterm] at hp
    exact (pendingTail_terminal _ _ _ hp).2

/-- C1 counterexample: three turns of speaker "A" — two short turns
`(0s,1s)` and `(10s,11s)` merge into one PendingSegment spanning
`[0, 11000)` ms (accumulated duration 2000ms), and the normal turn
`(12s,14s)` flushes it.  With `max_chunk_length_ms = 3000` the flushed
chunk spans 11000ms > 3000ms, so not every submitted chunk satisfies
`end_ms - start_ms <= max_chunk_length_ms`. -/
theorem scheduler_pending_chunk_exceeds_max :
    (⟨0, 11000, "A", ChunkKind.pending⟩ : Chunk) ∈
      allChunks (process_diarization_segments 16 3000 2000
        [⟨0, 1, "A"⟩, ⟨10, 11, "A"⟩, ⟨12, 14, "A"⟩]) ∧
    (3000 : ℤ) <
      (⟨0, 11000, "A", ChunkKind.pending⟩ : Chunk).end_ms -
        (⟨0, 11000, "A", ChunkKind.pending⟩ : Chunk).start_ms := by
  constructor
  · norm_num [process_diarization_segments, processTurn, msOf, enqueue,
      flushPending, chunkOfPending, metaOfPending, pendingTail, initState,
      allChunks, stateChunks]
  · norm_num

/-- Witness for the amended C1 at a concrete input: the `whole` chunk of
the normal turn `(12s,14s)` respects the bound. -/
theorem scheduler_nonpending_chunk_bounded_witness :
    (⟨12000, 14000, "A", ChunkKind.whole⟩ : Chunk) ∈
      allChunks (process_diarization_segments 16 3000 2000
        [⟨0, 1, "A"⟩, ⟨10, 11, "A"⟩, ⟨12, 14, "A"⟩]) ∧
    (⟨12000, 14000, "A", ChunkKind.whole⟩ : Chunk).end_ms -
      (⟨12000, 14000, "A", ChunkKind.whole⟩ : Chunk).start_ms ≤ 3000 := by
  have hmem : (⟨12000, 14000, "A", ChunkKind.whole⟩ : Chunk) ∈
      allChunks (process_diarization_segments 16 3000 2000
        [⟨0, 1, "A"⟩, ⟨10, 11, "A"⟩, ⟨12, 14, "A"⟩]) := by
    norm_num [process_diarization_segments, processTurn, msOf, enqueue,
      flushPending, chunkOfPending, metaOfPending, pendingTail, initState,
      allChunks, stateChunks]
  exact ⟨hmem, scheduler_nonpending_chunk_bounded 16 3000 2000
    [⟨0, 1, "A"⟩, ⟨10, 11, "A"⟩, ⟨12, 14, "A"⟩] _ hmem (by decide)⟩

/-- C2 counterexample: the short turn `(0s,1s)` of "A" leaves a
PendingSegment of duration 1000ms < `min_chunk_length_ms = 2000`; the
normal turn `(2s,4s)` of "B" then flushes it mid-stream (stt.py lines
222-242) without any minimum-duration check. -/
theorem scheduler_flush_below_min :
    ((⟨0, 1000, 1000, "A"⟩ : PendingSeg), FlushSite.beforeNormal) ∈
      (process_diarization_segments 16 3000 2000
        [⟨0, 1, "A"⟩, ⟨2, 4, "B"⟩]).flushes ∧
    (⟨0, 1000, 1000, "A"⟩ : PendingSeg).duration < 2000 := by
  constructor
  · norm_num [process_diarization_segments, processTurn, msOf, enqueue,
      flushPending, chunkOfPending, metaOfPending, pendingTail, initState]
  · norm_num

/-- Witness for the amended C2 at a concrete input: the speaker change
after three accumulated short "A" turns flushes a 2000ms PendingSegment,
which meets the minimum. -/
theorem scheduler_flush_min_rule_witness :
    ((⟨0, 2000, 2000, "A"⟩ : PendingSeg), FlushSite.shortSpeakerChange) ∈
      (process_diarization_segments 16 10000 2000
        [⟨0, 1, "A"⟩, ⟨1, 2, "A"⟩, ⟨3, 4, "B"⟩]).flushes ∧
    (2000 : ℤ) ≤ (⟨0, 2000, 2000, "A"⟩ : PendingSeg).duration := by
  have hmem : ((⟨0, 2000, 2000, "A"⟩ : PendingSeg),
      FlushSite.shortSpeakerChange) ∈
      (process_diarization_segments 16 10000 2000
        [⟨0, 1, "A"⟩, ⟨1, 2, "A"⟩, ⟨3, 4, "B"⟩]).flushes := by
    norm_num [process_diarization_segments, processTurn, msOf, enqueue,
      flushPending, chunkOfPending, metaOfPending, pendingTail, initState,
      (by decide : ("A" : String) ≠ "B")]
  exact ⟨hmem, (scheduler_flush_min_rule 16 10000 2000
    [⟨0, 1, "A"⟩, ⟨1, 2, "A"⟩, ⟨3, 4, "B"⟩]).1 _ hmem rfl⟩

/-- Witness for C9 at a concrete input: three normal turns with
`batch_size = 2` give one full mid-stream batch and a final batch of one. -/
theorem scheduler_batch_alignment_witness :
    0 < 2 ∧
    ((∀ sub ∈ (process_diarization_segments 2 3000 2000
        [⟨0, 2, "A"⟩, ⟨3, 5, "A"⟩, ⟨6, 8, "A"⟩]).subs,
        sub.1.length = 2 ∧ sub.2.length = 2 ∧
        List.Forall₂ ChunkMetaAligned sub.1 sub.2) ∧
     (∀ sub, (process_diarization_segments 2 3000 2000
        [⟨0, 2, "A"⟩, ⟨3, 5, "A"⟩, ⟨6, 8, "A"⟩]).finalSub = some sub →
        1 ≤ sub.1.length ∧ sub.1.length ≤ 2 ∧ sub.2.length = sub.1.length ∧
        List.Forall₂ ChunkMetaAligned sub.1 sub.2)) :=
  ⟨by decide, scheduler_batch_alignment 2 3000 2000
    [⟨0, 2, "A"⟩, ⟨3, 5, "A"⟩, ⟨6, 8, "A"⟩] (by decide)⟩

theorem rangeLen_pos {s e step : ℤ} (hstep : 0 < step) (hse : s < e) :
    0 < rangeLen s e step := by
  unfold rangeLen
  rw [if_pos ⟨hstep, hse⟩]
  exact Nat.succ_pos _

/-- Python `range(s, e, step)` runs far enough to cover `e`. -/
theorem rangeLen_covers {s e step : ℤ} (hstep : 0 < step) (hse : s < e) :
    e ≤ s + step * rangeLen s e step := by
  unfold rangeLen
  rw [if_pos ⟨hstep, hse⟩]
  have hd : ((e - s - 1).toNat : ℤ) = e - s - 1 := Int.toNat_of_nonneg (by omega)
  have hst : (step.toNat : ℤ) = step := Int.toNat_of_nonneg (by omega)
  have hstpos : 0 < step.toNat := by omega
  have hlt : (e - s - 1).toNat <
      step.toNat * ((e - s - 1).toNat / step.toNat + 1) := by
    have hmod := Nat.div_add_mod (e - s - 1).toNat step.toNat
    have hmlt := Nat.mod_lt (e - s - 1).toNat hstpos
    have hsucc : step.toNat * ((e - s - 1).toNat / step.toNat + 1) =
        step.toNat * ((e - s - 1).toNat / step.toNat) + step.toNat :=
      Nat.mul_succ _ _
    omega
  have hcast : ((e - s - 1).toNat : ℤ) <
      (step.toNat : ℤ) * (((e - s - 1).toNat / step.toNat + 1 : ℕ) : ℤ) := by
    exact_mod_cast hlt
  rw [hd, hst] at hcast
  omega

/-- All iterations of `range(s, e, step)` except possibly the last leave at
least one full `step` before `e`. -/
theorem rangeLen_inner {s e step : ℤ} (hstep : 0 < step) (hse : s < e)
    (i : ℕ) (hi : i + 1 < rangeLen s e step) :
    s + step * (i + 1 : ℕ) < e := by
  unfold rangeLen at hi
  rw [if_pos ⟨hstep, hse⟩] at hi
  have hd : ((e - s - 1).toNat : ℤ) = e - s - 1 := Int.toNat_of_nonneg (by omega)
  have hst : (step.toNat : ℤ) = step := Int.toNat_of_nonneg (by omega)
  have hle : i + 1 ≤ (e - s - 1).toNat / step.toNat := by omega
  have hmul : step.toNat * (i + 1) ≤
      step.toNat * ((e - s - 1).toNat / step.toNat) :=
    Nat.mul_le_mul_left _ hle
  have hdiv : step.toNat * ((e - s - 1).toNat / step.toNat) ≤
      (e - s - 1).toNat := Nat.mul_div_le _ _
  have hcast : (step.toNat : ℤ) * ((i + 1 : ℕ) : ℤ) ≤ ((e - s - 1).toNat : ℤ) := by
    exact_mod_cast Nat.le_trans hmul hdiv
  rw [hd, hst] at hcast
  push_cast at hcast ⊢
  omega

theorem splitWindows_length (s e step : ℤ) :
    (splitWindows s e step).length = rangeLen s e step := by
  unfold splitWindows
  rw [List.length_map, List.length_range]

theorem splitWindows_get (s e step : ℤ) (i : ℕ)
    (hi : i < (splitWindows s e step).length) :
    (splitWindows s e step).get ⟨i, hi⟩ =
      (s + step * i, min (s + step * i + step) e) := by
  unfold splitWindows
  rw [List.get_eq_getElem, List.getElem_map, List.getElem_range]

theorem splitWindows_ne_nil {s e step : ℤ} (hstep : 0 < step) (hse : s < e) :
    splitWindows s e step ≠ [] := by
  intro h
  have := splitWindows_length s e step
  rw [h] at this
  have hpos := rangeLen_pos hstep hse
  simp at this
  omega

theorem splitWindows_head {s e step : ℤ} (hstep : 0 < step) (hse : s < e) :
    (splitWindows s e step).head? = some (s, min (s + step) e) := by
  obtain ⟨m, hm⟩ := Nat.exists_eq_succ_of_ne_zero
    (Nat.pos_iff_ne_zero.1 (rangeLen_pos hstep hse))
  unfold splitWindows
  rw [hm, List.range_succ_eq_map]
  simp

theorem splitWindows_getLast_snd {s e step : ℤ} (hstep : 0 < step)
    (hse : s < e) :
    ((splitWindows s e step).getLast?).map Prod.snd = some e := by
  obtain ⟨m, hm⟩ := Nat.exists_eq_succ_of_ne_zero
    (Nat.pos_iff_ne_zero.1 (rangeLen_pos hstep hse))
  have hcov := rangeLen_covers hstep hse
  rw [hm] at hcov
  unfold splitWindows
  rw [hm, List.range_succ, List.map_append]
  simp only [List.map_cons, List.map_nil, List.getLast?_concat, Option.map_some']
  have hle : e ≤ s + step * (m : ℤ) + step := by
    push_cast at hcov
    linarith
  simp only [min_eq_right hle]

theorem splitWindows_chain {s e step : ℤ} (hstep : 0 < step) (hse : s < e) :
    List.Chain' (fun w w' => w.2 = w'.1) (splitWindows s e step) := by
  rw [List.chain'_iff_get]
  intro i hi
  rw [splitWindows_get, splitWindows_get]
  have hlen : i + 1 < rangeLen s e step := by
    rw [splitWindows_length] at hi
    omega
  have hin := rangeLen_inner hstep hse i hlen
  dsimp only
  rw [min_eq_left (by push_cast at hin ⊢; linarith)]
  push_cast
  ring

theorem splitWindows_dropLast_width {s e step : ℤ} (hstep : 0 < step)
    (hse : s < e) :
    ∀ w ∈ (splitWindows s e step).dropLast, w.2 - w.1 = step := by
  obtain ⟨m, hm⟩ := Nat.exists_eq_succ_of_ne_zero
    (Nat.pos_iff_ne_zero.1 (rangeLen_pos hstep hse))
  unfold splitWindows
  rw [hm, List.range_succ, List.map_append, List.map_cons, List.map_nil,
    List.dropLast_concat]
  intro w hw
  rcases List.mem_map.1 hw with ⟨i, hi, rfl⟩
  have him : i < m := List.mem_range.1 hi
  have hlen : i + 1 < rangeLen s e step := by rw [hm]; omega
  have hin := rangeLen_inner hstep hse i hlen
  dsimp only
  rw [min_eq_left (by push_cast at hin ⊢; linarith)]
  ring

theorem pendingTail_none (minLen : ℤ) (st : SchedState)
    (h : st.current = none) : pendingTail minLen st = (st, none) := by
  unfold pendingTail
  rw [h]

theorem windowFold_stateChunks (bs : ℕ) (sp : String) :
    ∀ (ws : List (ℤ × ℤ)) (st : SchedState),
      stateChunks (ws.foldl (fun s w =>
          enqueue bs s ⟨w.1, w.2, sp, ChunkKind.window⟩
            ⟨(w.1 : ℚ) / 1000, (w.2 : ℚ) / 1000, sp⟩) st) =
        stateChunks st ++
          ws.map (fun w => (⟨w.1, w.2, sp, ChunkKind.window⟩ : Chunk)) := by
  intro ws
  induction ws with
  | nil => intro st; simp
  | cons w ws ih =>
    intro st
    rw [List.foldl_cons, ih, enqueue_stateChunks]
    simp

theorem windowFold_current (bs : ℕ) (sp : String) :
    ∀ (ws : List (ℤ × ℤ)) (st : SchedState),
      (ws.foldl (fun s w =>
          enqueue bs s ⟨w.1, w.2, sp, ChunkKind.window⟩
            ⟨(w.1 : ℚ) / 1000, (w.2 : ℚ) / 1000, sp⟩) st).current = st.current := by
  intro ws
  induction ws with
  | nil => intro st; rfl
  | cons w ws ih =>
    intro st
    rw [List.foldl_cons, ih, enqueue_current]

/-- C5: a single turn longer than `max_chunk_length_ms` is split into
consecutive windows, all carrying the turn's speaker, that exactly
reconstruct `[start_ms, end_ms)`: the first window starts at `start_ms`
(and has width `max_chunk_length_ms`), consecutive windows are adjacent
(each window's end is the next window's start — no gaps, no overlaps),
every window except the last has width exactly `max_chunk_length_ms`, no
window exceeds that width, and the last window ends exactly at `end_ms`. -/
theorem scheduler_long_turn_round_trip (bs : ℕ) (maxLen minLen : ℤ)
    (t : Turn) (hmaxpos : 0 < maxLen) (hminmax : minLen ≤ maxLen)
    (hlong : maxLen < msOf t.stop - msOf t.start) :
    allChunks (process_diarization_segments bs maxLen minLen [t]) =
      (splitWindows (msOf t.start) (msOf t.stop) maxLen).map
        (fun w => (⟨w.1, w.2, t.speaker, ChunkKind.window⟩ : Chunk)) ∧
    splitWindows (msOf t.start) (msOf t.stop) maxLen ≠ [] ∧
    (splitWindows (msOf t.start) (msOf t.stop) maxLen).head? =
      some (msOf t.start, msOf t.start + maxLen) ∧
    ((splitWindows (msOf t.start) (msOf t.stop) maxLen).getLast?).map
      Prod.snd = some (msOf t.stop) ∧
    List.Chain' (fun w w' => w.2 = w'.1)
      (splitWindows (msOf t.start) (msOf t.stop) maxLen) ∧
    (∀ w ∈ (splitWindows (msOf t.start) (msOf t.stop) maxLen).dropLast,
      w.2 - w.1 = maxLen) ∧
    (∀ w ∈ splitWindows (msOf t.start) (msOf t.stop) maxLen,
      w.2 - w.1 ≤ maxLen) := by
  have hse : msOf t.start < msOf t.stop := by omega
  have hshort' : ¬ (msOf t.stop - msOf t.start < minLen) := by omega
  refine ⟨?_, splitWindows_ne_nil hmaxpos hse, ?_,
    splitWindows_getLast_snd hmaxpos hse, splitWindows_chain hmaxpos hse,
    splitWindows_dropLast_width hmaxpos hse,
    splitWindows_width_le _ _ _⟩
  · have hpt : processTurn bs maxLen minLen initState t =
        (splitWindows (msOf t.start) (msOf t.stop) maxLen).foldl
          (fun st w => enqueue bs st ⟨w.1, w.2, t.speaker, ChunkKind.window⟩
            ⟨(w.1 : ℚ) / 1000, (w.2 : ℚ) / 1000, t.speaker⟩) initState := by
      unfold processTurn
      dsimp only
      rw [if_neg hshort', if_pos hlong]
      rfl
    have hfold : ([t] : List Turn).foldl
        (processTurn bs maxLen minLen) initState =
        processTurn bs maxLen minLen initState t := rfl
    rw [process_allChunks, hfold, hpt]
    rw [pendingTail_none]
    · rw [windowFold_stateChunks]
      rw [initState_stateChunks, List.nil_append]
    · rw [windowFold_current]
      rfl
  · rw [splitWindows_head hmaxpos hse]
    have : min (msOf t.start + maxLen) (msOf t.stop) =
        msOf t.start + maxLen := min_eq_left (by omega)
    rw [this]

theorem msOf_zero : msOf 0 = 0 := by norm_num [msOf]

theorem msOf_one : msOf 1 = 1000 := by norm_num [msOf]

theorem msOf_ten : msOf 10 = 10000 := by norm_num [msOf]

theorem msOf_eleven : msOf 11 = 11000 := by norm_num [msOf]

theorem msOf_twentyfive : msOf 25 = 25000 := by norm_num [msOf]

/-- Witness for C5: the spec's own scenario — turn `(0s, 25s, "A")` with
`max_chunk_length_ms = 10000` gives windows `[0,10000)`, `[10000,20000)`,
`[20000,25000)`. -/
theorem scheduler_long_turn_round_trip_witness :
    (0 : ℤ) < 10000 ∧ (2000 : ℤ) ≤ 10000 ∧
    (10000 : ℤ) < msOf (25 : ℚ) - msOf (0 : ℚ) ∧
    (allChunks (process_diarization_segments 16 10000 2000
        [(⟨0, 25, "A"⟩ : Turn)]) =
      (splitWindows (msOf (0 : ℚ)) (msOf (25 : ℚ)) 10000).map
        (fun w => (⟨w.1, w.2, "A", ChunkKind.window⟩ : Chunk)) ∧
    splitWindows (msOf (0 : ℚ)) (msOf (25 : ℚ)) 10000 ≠ [] ∧
    (splitWindows (msOf (0 : ℚ)) (msOf (25 : ℚ)) 10000).head? =
      some (msOf (0 : ℚ), msOf (0 : ℚ) + 10000) ∧
    ((splitWindows (msOf (0 : ℚ)) (msOf (25 : ℚ)) 10000).getLast?).map
      Prod.snd = some (msOf (25 : ℚ)) ∧
    List.Chain' (fun w w' => w.2 = w'.1)
      (splitWindows (msOf (0 : ℚ)) (msOf (25 : ℚ)) 10000) ∧
    (∀ w ∈ (splitWindows (msOf (0 : ℚ)) (msOf (25 : ℚ)) 10000).dropLast,
      w.2 - w.1 = 10000) ∧
    (∀ w ∈ splitWindows (msOf (0 : ℚ)) (msOf (25 : ℚ)) 10000,
      w.2 - w.1 ≤ 10000)) :=
  ⟨by decide, by decide,
   by rw [msOf_twentyfive, msOf_zero]; decide,
   scheduler_long_turn_round_trip 16 10000 2000 ⟨0, 25, "A"⟩ (by decide)
     (by decide) (by rw [msOf_twentyfive, msOf_zero]; decide)⟩

/-- Auxiliary for C10: folding a run of short same-speaker turns onto an
existing PendingSegment keeps its start, moves its end to the last turn's
end, adds each turn's duration, and touches nothing else in the state. -/
theorem shortRun_accumulate (bs : ℕ) (maxLen minLen : ℤ) :
    ∀ (ts : List Turn) (st : SchedState) (p : PendingSeg),
      st.current = some p →
      (∀ t ∈ ts, t.speaker = p.speaker) →
      (∀ t ∈ ts, msOf t.stop - msOf t.start < minLen) →
      (ts.foldl (processTurn bs maxLen minLen) st).current =
        some ⟨p.start_ms,
          ts.getLast?.elim p.end_ms (fun tl => msOf tl.stop),
          p.duration + (ts.map (fun t => msOf t.stop - msOf t.start)).sum,
          p.speaker⟩ ∧
      (ts.foldl (processTurn bs maxLen minLen) st).batch_chunks =
        st.batch_chunks ∧
      (ts.foldl (processTurn bs maxLen minLen) st).subs = st.subs ∧
      (ts.foldl (processTurn bs maxLen minLen) st).flushes = st.flushes := by
  intro ts
  induction ts with
  | nil =>
    intro st p hcur _ _
    refine ⟨?_, rfl, rfl, rfl⟩
    rw [List.foldl_nil, hcur]
    simp
  | cons t ts ih =>
    intro st p hcur hsp hshort
    have hst : t.speaker = p.speaker := hsp t (List.mem_cons_self _ _)
    have hsh : msOf t.stop - msOf t.start < minLen :=
      hshort t (List.mem_cons_self _ _)
    have hstep : processTurn bs maxLen minLen st t =
        { st with
          current :=
            some { p with
                   end_ms := msOf t.stop,
                   duration := p.duration + (msOf t.stop - msOf t.start) } } := by
      unfold processTurn
      dsimp only
      rw [if_pos hsh, hcur]
      dsimp only
      rw [if_pos hst.symm]
    rw [List.foldl_cons, hstep]
    have iha := ih
      { st with
        current :=
          some { p with
                 end_ms := msOf t.stop,
                 duration := p.duration + (msOf t.stop - msOf t.start) } }
      { p with
        end_ms := msOf t.stop,
        duration := p.duration + (msOf t.stop - msOf t.start) } rfl
      (fun t' ht' => hsp t' (List.mem_cons_of_mem _ ht'))
      (fun t' ht' => hshort t' (List.mem_cons_of_mem _ ht'))
    refine ⟨?_, iha.2.1, iha.2.2.1, iha.2.2.2⟩
    rw [iha.1]
    cases ts with
    | nil =>
      simp [add_assoc]
    | cons t2 ts2 =>
      simp only [List.getLast?_cons_cons, List.map_cons, List.sum_cons,
        Option.elim]
      congr 1
      dsimp only
      congr 1
      ring

/-- C10: consecutive short turns of one speaker accumulate into a single
PendingSegment whose `start_ms` is the first turn's start, whose `end_ms`
is the last turn's end, and whose recorded `duration` is the sum of the
individual turns' durations (so silence gaps between the turns are inside
the span but not in the duration); nothing is enqueued while
accumulating, and when a PendingSegment is later flushed the submitted
chunk slices the audio over the entire span `[start_ms, end_ms)`. -/
theorem scheduler_short_turn_accumulation (bs : ℕ) (maxLen minLen : ℤ)
    (st : SchedState) (t0 : Turn) (ts : List Turn)
    (hcur : st.current = none)
    (hsp : ∀ t ∈ ts, t.speaker = t0.speaker)
    (hshort0 : msOf t0.stop - msOf t0.start < minLen)
    (hshort : ∀ t ∈ ts, msOf t.stop - msOf t.start < minLen) :
    (((t0 :: ts).foldl (processTurn bs maxLen minLen) st).current =
      some ⟨msOf t0.start,
        ts.getLast?.elim (msOf t0.stop) (fun tl => msOf tl.stop),
        ((t0 :: ts).map (fun t => msOf t.stop - msOf t.start)).sum,
        t0.speaker⟩ ∧
    ((t0 :: ts).foldl (processTurn bs maxLen minLen) st).batch_chunks =
      st.batch_chunks ∧
    ((t0 :: ts).foldl (processTurn bs maxLen minLen) st).subs = st.subs ∧
    ((t0 :: ts).foldl (processTurn bs maxLen minLen) st).flushes =
      st.flushes) ∧
    ∀ (site : FlushSite) (st' : SchedState) (p : PendingSeg),
      stateChunks (flushPending bs site st' p) =
        stateChunks st' ++ [⟨p.start_ms, p.end_ms, p.speaker, ChunkKind.pending⟩] := by
  constructor
  · have hstep : processTurn bs maxLen minLen st t0 =
        { st with current := some ⟨msOf t0.start, msOf t0.stop,
            msOf t0.stop - msOf t0.start, t0.speaker⟩ } := by
      unfold processTurn
      dsimp only
      rw [if_pos hshort0, hcur]
    have ha := shortRun_accumulate bs maxLen minLen ts
      (processTurn bs maxLen minLen st t0)
      ⟨msOf t0.start, msOf t0.stop, msOf t0.stop - msOf t0.start, t0.speaker⟩
      (by rw [hstep]) hsp hshort
    have hb : (processTurn bs maxLen minLen st t0).batch_chunks =
        st.batch_chunks := by rw [hstep]
    have hs : (processTurn bs maxLen minLen st t0).subs = st.subs := by
      rw [hstep]
    have hf : (processTurn bs maxLen minLen st t0).flushes = st.flushes := by
      rw [hstep]
    rw [List.foldl_cons]
    refine ⟨?_, ha.2.1.trans hb, ha.2.2.1.trans hs, ha.2.2.2.trans hf⟩
    rw [ha.1]
    simp only [List.map_cons, List.sum_cons]
  · intro site st' p
    rw [flushPending_stateChunks]
    rfl

/-- Witness for C10: two short "A" turns `(0s,1s)` and `(10s,11s)`
accumulate into the PendingSegment `[0, 11000)` with recorded duration
2000ms — strictly smaller than the 11000ms span, the 9s silence gap
being inside the span. -/
theorem scheduler_short_turn_accumulation_witness :
    (([⟨0, 1, "A"⟩, ⟨10, 11, "A"⟩] : List Turn).foldl
        (processTurn 16 3000 2000) initState).current =
      some ⟨0, 11000, 2000, "A"⟩ ∧
    (2000 : ℤ) < 11000 - 0 := by
  have h := scheduler_short_turn_accumulation 16 3000 2000 initState
    ⟨0, 1, "A"⟩ [⟨10, 11, "A"⟩] rfl
    (by
      intro t ht
      rw [List.mem_singleton] at ht
      subst ht
      rfl)
    (by
      show msOf 1 - msOf 0 < 2000
      rw [msOf_one, msOf_zero]
      decide)
    (by
      intro t ht
      rw [List.mem_singleton] at ht
      subst ht
      show msOf 11 - msOf 10 < 2000
      rw [msOf_eleven, msOf_ten]
      decide)
  refine ⟨?_, by decide⟩
  rw [h.1.1]
  simp [msOf_zero, msOf_one, msOf_ten, msOf_eleven,
    show msOf (11 : ℚ) = 11000 from msOf_eleven]

/-- C7: the Merger coalesces a subsequent segment into the accumulator
exactly when the speakers agree and the gap is at most `max_gap`; the
output is the list of collapsed maximal blocks, every segment absorbed
into a block shares the block head's speaker (so no output MergedSegment
mixes text of two speakers), the chain condition holds at each absorption
step, and consecutive emitted segments fail the merge condition. -/
theorem merge_segments_block_decomposition (segs : List Segment) (g : ℚ) :
    segs = [] ∧ merge_segments segs g = [] ∨
    ∃ blocks : List (Segment × List Segment),
      blocks ≠ [] ∧
      segs = (blocks.map (fun b => b.1 :: b.2)).flatten ∧
      merge_segments segs g = blocks.map (fun b => collapse b.1 b.2) ∧
      (∀ b ∈ blocks, List.Chain (Mergeable g) b.1 b.2) ∧
      (∀ b ∈ blocks, ∀ s ∈ b.2, s.speaker = b.1.speaker) ∧
      List.Chain'
        (fun b b' => ¬ Mergeable g (collapse b.1 b.2) b'.1) blocks :=
  merge_blocks segs g

/-- Witness for C7: the block decomposition applied at a concrete input. -/
theorem merge_segments_block_decomposition_witness :
    ([(⟨0, 1, "hi", "A"⟩ : Segment)] = [] ∧
      merge_segments [(⟨0, 1, "hi", "A"⟩ : Segment)] 2 = [] ∨
    ∃ blocks : List (Segment × List Segment),
      blocks ≠ [] ∧
      [(⟨0, 1, "hi", "A"⟩ : Segment)] =
        (blocks.map (fun b => b.1 :: b.2)).flatten ∧
      merge_segments [(⟨0, 1, "hi", "A"⟩ : Segment)] 2 =
        blocks.map (fun b => collapse b.1 b.2) ∧
      (∀ b ∈ blocks, List.Chain (Mergeable 2) b.1 b.2) ∧
      (∀ b ∈ blocks, ∀ s ∈ b.2, s.speaker = b.1.speaker) ∧
      List.Chain'
        (fun b b' => ¬ Mergeable 2 (collapse b.1 b.2) b'.1) blocks) :=
  merge_segments_block_decomposition [(⟨0, 1, "hi", "A"⟩ : Segment)] 2

/-- Witness for the amended C3 at a concrete configuration. -/
theorem chunkLengthConfig_error_iff_witness :
    (∃ e, chunkLengthConfig (some 3000) (some 1000) = Except.error e) ↔
      (some (3000 : ℤ)).getD 0 = 0 ∨ (some (1000 : ℤ)).getD 0 = 0 :=
  chunkLengthConfig_error_iff (some 3000) (some 1000)
